/-
Verification of the cypress-pr-videos core: video indexing, spec-to-video
matching, bounded-concurrency upload orchestration, and the PR comment
upsert, modelled as a shallow embedding of the TypeScript sources
(src/upload.ts, src/comment.ts, src/main.ts).
-/
import Mathlib

set_option autoImplicit false
set_option maxRecDepth 8192

namespace CypressPrVideos

/-! ### String primitives

JavaScript string operations used by the sources, modelled over `List Char`:
`String.prototype.includes` (substring test) and `String.prototype.endsWith`.
-/

/-- Membership of `needle` as a contiguous sublist of the haystack,
modelling JS `hay.includes(needle)`. -/
def listHasSub (needle : List Char) : List Char → Bool
  | [] => needle.isEmpty
  | c :: t => needle.isPrefixOf (c :: t) || listHasSub needle t

/-- JS `hay.includes(needle)`. -/
def strIncludes (hay needle : String) : Bool :=
  listHasSub needle.data hay.data

/-- JS `s.endsWith(t)`. -/
def strEndsWith (s t : String) : Bool :=
  t.data.isSuffixOf s.data

/-! ### Data model -/

/-- A changed spec file, as reported by the diff provider (src/diff.ts). -/
structure ChangedSpec where
  path : String
deriving DecidableEq, Repr

/-- A successful upload: the spec path and its signed playback URL. -/
structure UploadResult where
  spec : String
  url : String
deriving DecidableEq, Repr

/-! ### Comment body construction (src/comment.ts) -/

def COMMENT_MARKER : String := "<!-- cypress-pr-videos -->"

/-- JS `s.split(sep)` for a one-character separator, at the character-list
level: `"a/b"` gives `["a", "b"]`, `""` gives `[""]`, `"/"` gives
`["", ""]`. -/
def splitOnChar (sep : Char) : List Char → List (List Char)
  | [] => [[]]
  | c :: t =>
    if c = sep then [] :: splitOnChar sep t
    else
      match splitOnChar sep t with
      | h :: r => (c :: h) :: r
      | [] => [[c]]

/-- Translation of `getDisplayName` (src/comment.ts lines 11-16):
`specPath.split('/')`, then `parts.slice(-2)` (the last two segments, or all
if fewer), joined back with `/`. -/
def getDisplayName (specPath : String) : String :=
  let parts := splitOnChar '/' specPath.data
  let relevant := parts.drop (parts.length - 2)
  ⟨List.intercalate ['/'] relevant⟩

/-- JS `Math.round(num / den)` for natural `num` and positive `den`:
round half toward positive infinity. -/
def jsRoundDiv (num den : Nat) : Nat :=
  (2 * num + den) / (2 * den)

/-- JS `Array.prototype.join('\n')`. -/
def joinLines : List String → String
  | [] => ""
  | [x] => x
  | x :: y :: t => x ++ "\n" ++ joinLines (y :: t)

/-- One table row of the comment body, the template literal in
`results.map` of `buildCommentBody`. -/
def rowFor (r : UploadResult) : String :=
  "| `" ++ getDisplayName r.spec ++ "` | [▶️ Watch](" ++ r.url ++ ") |"

/-- The fixed trailer of the comment body for a given expiry. -/
def expiryTrailer (expirySeconds : Nat) : String :=
  "> Videos expire " ++ toString (jsRoundDiv expirySeconds 3600) ++ " hours after upload."

/-- Translation of `buildCommentBody` (src/comment.ts lines 18-39). -/
def buildCommentBody (header : String) (results : List UploadResult)
    (expirySeconds : Nat) : String :=
  COMMENT_MARKER ++ "\n" ++ header ++ "\n\n| Spec | Video |\n|---|---|\n"
    ++ joinLines (results.map rowFor) ++ "\n\n" ++ expiryTrailer expirySeconds

/-! ### Comment store and upsert (src/comment.ts) -/

/-- A pull-request comment as the core sees it: an id and a body. -/
structure Comment where
  id : Nat
  body : String
deriving DecidableEq, Repr

/-- A comment is "marked" when its body contains the marker token,
modelling `c.body?.includes(COMMENT_MARKER) ?? false`. -/
def marked (c : Comment) : Bool :=
  strIncludes c.body COMMENT_MARKER

/-- Number of marked comments in a store. -/
def countMarked (store : List Comment) : Nat :=
  (store.filter marked).length

/-- The paginated search loop of `postOrUpdateComment` (src/comment.ts lines
60-80) over the comment store: fetch the next page of (up to) 100 comments,
stop with `none` on an empty page, stop with the first marked comment of the
page when one exists, stop with `none` on a short page, else continue with
the next page. -/
def scanLoop (remaining : List Comment) : Option Comment :=
  if (remaining.take 100).isEmpty then none
  else
    match (remaining.take 100).find? marked with
    | some c => some c
    | none =>
      if (remaining.take 100).length < 100 then none
      else scanLoop (remaining.drop 100)
termination_by remaining.length
decreasing_by
  simp only [List.length_take, List.length_drop] at *
  omega

/-- Page `p` (1-based) of a finite comment store, with the fixed page size
100 used by the source (`per_page: 100`). -/
def pageOf (store : List Comment) (p : Nat) : List Comment :=
  (store.drop ((p - 1) * 100)).take 100

/-- The loop continues past a fetched page iff the page is nonempty, holds no
marked comment, and is not short (length at least 100). -/
def continuePaging (pg : List Comment) : Bool :=
  !pg.isEmpty && pg.all (fun c => !marked c) && decide (100 ≤ pg.length)

/-- The search loop of `postOrUpdateComment`, run against an arbitrary
(possibly endless) page source, fetches page `k`: every earlier page let the
loop continue. -/
def scanVisits (pages : Nat → List Comment) (k : Nat) : Prop :=
  ∀ j, 1 ≤ j → j < k → continuePaging (pages j) = true

/-- The single write action `postOrUpdateComment` performs. -/
inductive UpsertAction where
  | updated (id : Nat)
  | created
  | skipped
deriving DecidableEq, Repr

/-- Translation of `postOrUpdateComment` (src/comment.ts lines 41-104) at the
store level: an empty results list is a no-op; otherwise the paginated scan
finds the first marked comment and its body is replaced in place, or a new
comment (with a host-assigned fresh id) is appended. -/
def postOrUpdateComment (store : List Comment) (results : List UploadResult)
    (header : String) (expirySeconds : Nat) (freshId : Nat) :
    List Comment × UpsertAction :=
  if results.isEmpty then (store, .skipped)
  else
    let body := buildCommentBody header results expirySeconds
    match scanLoop store with
    | some c =>
      (store.map (fun x => if x.id = c.id then { x with body := body } else x),
        .updated c.id)
    | none => (store ++ [⟨freshId, body⟩], .created)

/-! ### Spec-to-video matching (src/upload.ts) -/

/-- The suffix-match condition of `findMatchingVideo` (src/upload.ts lines
97-101): the spec path equals the key, or ends with `/` followed by the key,
or ends with the platform path separator followed by the key. -/
def matchCond (specPath sep videoKey : String) : Bool :=
  specPath == videoKey
    || strEndsWith specPath ("/" ++ videoKey)
    || strEndsWith specPath (sep ++ videoKey)

/-- The accumulator loop of `findMatchingVideo`: iterate the video map
entries in order, keeping the matching entry of greatest key length seen so
far (strictly greater than the current best length, which starts at 0). -/
def findLoop (specPath sep : String) :
    List (String × String) → Option (String × String) → Nat →
    Option (String × String)
  | [], best, _ => best
  | (k, v) :: rest, best, bestLen =>
    if matchCond specPath sep k = true ∧ bestLen < k.length then
      findLoop specPath sep rest (some (k, v)) k.length
    else
      findLoop specPath sep rest best bestLen

/-- Translation of `findMatchingVideo` (src/upload.ts lines 88-111); the
video map is the list of its entries in insertion order, `sep` is the
platform path separator `path.sep`. -/
def findMatchingVideo (specPath sep : String)
    (videoMap : List (String × String)) : Option (String × String) :=
  findLoop specPath sep videoMap none 0

/-- The best-match key length tracked by `findLoop`: the length of the
result's key, or the incoming accumulator length when no entry was kept. -/
def resLen : Option (String × String) → Nat → Nat
  | some kv, _ => kv.1.length
  | none, n => n

/-! ### Video file collection (src/upload.ts `collectVideoFiles`) -/

/-- A directory tree: the entries `fs.readdirSync` enumerates, each either a
regular file or a directory with its own entries. -/
inductive FsTree where
  | file (name : String)
  | dir (name : String) (children : List FsTree)

/-- Relative-path join below the video root: the top level contributes the
bare entry name, deeper levels are separated by `/`. -/
def relJoin (rel name : String) : String :=
  if rel = "" then name else rel ++ "/" ++ name

/-- JS `s.slice(0, -4)`: drop the last four characters. -/
def dropLast4 (s : String) : String :=
  ⟨s.data.dropLast.dropLast.dropLast.dropLast⟩

mutual

/-- The body of `walk` (src/upload.ts lines 56-68) on one directory entry:
directories are recursed into, files ending in `.mp4` are indexed under
their relative path with the `.mp4` suffix stripped, other files are
ignored. `base` is the video directory, `rel` the path of the current
directory relative to it. -/
def walkOne (base rel : String) : FsTree → List (String × String)
  | .file name =>
    if strEndsWith name ".mp4" then
      [(dropLast4 (relJoin rel name), base ++ "/" ++ relJoin rel name)]
    else []
  | .dir name children => walkMany base (relJoin rel name) children

/-- `walk` over the entry list of one directory. -/
def walkMany (base rel : String) : List FsTree → List (String × String)
  | [] => []
  | t :: ts => walkOne base rel t ++ walkMany base rel ts

end

/-- Translation of `collectVideoFiles` (src/upload.ts lines 48-72): a
nonexistent video directory (`fs.existsSync` false) yields the empty index,
otherwise the directory tree is walked from the root. -/
def collectVideoFiles (videoDir : String) (root : Option (List FsTree)) :
    List (String × String) :=
  match root with
  | none => []
  | some entries => walkMany videoDir "" entries

mutual

/-- All files in a tree, as pairs of (path relative to the enclosing
directory, file name). This is the reference enumeration the claim about
`collectVideoFiles` quantifies over. -/
def allFilesOne : FsTree → List (String × String)
  | .file name => [(name, name)]
  | .dir name children =>
    (allFilesMany children).map (fun p => (name ++ "/" ++ p.1, p.2))

/-- All files under a list of entries. -/
def allFilesMany : List FsTree → List (String × String)
  | [] => []
  | t :: ts => allFilesOne t ++ allFilesMany ts

end

mutual

/-- Every directory name in the tree is nonempty (true of any real
filesystem). -/
def dirsOkOne : FsTree → Bool
  | .file _ => true
  | .dir name children => name != "" && dirsOkMany children

/-- Directory-name wellformedness for a list of entries. -/
def dirsOkMany : List FsTree → Bool
  | [] => true
  | t :: ts => dirsOkOne t && dirsOkMany ts

end

/-- The index entry contributed by one file, given as (path relative to the
video root, file name): `.mp4` files map to (relative path with the last
four characters stripped, full path under the root); other files contribute
nothing. -/
def mp4Entry (base rel : String) (p : String × String) : Option (String × String) :=
  if strEndsWith p.2 ".mp4" = true then
    some (dropLast4 (relJoin rel p.1), base ++ "/" ++ relJoin rel p.1)
  else none

/-! ### The bounded worker pool (src/upload.ts `runWithConcurrency`) -/

/-- What a pool worker is doing: waiting at the loop head, awaiting
`fn(items[i])` for a claimed index `i`, or finished. -/
inductive WStat where
  | idle
  | running (i : Nat)
  | done
deriving DecidableEq, Repr

/-- Is a worker in flight (awaiting an upload)? -/
def isRunning : WStat → Bool
  | .running _ => true
  | _ => false

/-- Has a worker exited its loop? -/
def isDone : WStat → Bool
  | .done => true
  | _ => false

/-- The shared state of `runWithConcurrency` (src/upload.ts lines 199-220):
the shared index counter, the per-worker statuses, and the results array
(`none` = not yet written). -/
structure PoolState (R : Type) where
  nextIndex : Nat
  workers : List WStat
  slots : List (Option R)
deriving DecidableEq, Repr

/-- JS `Math.min(maxConcurrent, items.length)` fed to
`Array.from({length})`: a nonpositive length yields an empty worker array. -/
def numWorkers (maxConcurrent : Int) (itemCount : Nat) : Nat :=
  (min maxConcurrent (itemCount : Int)).toNat

/-- The pool's initial state: `min(maxConcurrent, items.length)` workers at
their loop heads, all result slots unwritten. -/
def initState (R : Type) (maxConcurrent : Int) (itemCount : Nat) :
    PoolState R :=
  ⟨0, List.replicate (numWorkers maxConcurrent itemCount) .idle,
    List.replicate itemCount none⟩

/-- One scheduler step of the pool: a worker at its loop head claims the
shared index and starts `fn(items[i])`; a running worker's awaited call
resolves and the result is written to slot `i`; a worker at its loop head
sees the cursor exhausted and exits. -/
inductive PoolStep {T R : Type} (items : List T) (fn : T → R) :
    PoolState R → PoolState R → Prop where
  | claim (s : PoolState R) (w : Nat)
      (hw : s.workers[w]? = some .idle) (hi : s.nextIndex < items.length) :
      PoolStep items fn s
        ⟨s.nextIndex + 1, s.workers.set w (.running s.nextIndex), s.slots⟩
  | finish (s : PoolState R) (w i : Nat)
      (hw : s.workers[w]? = some (.running i)) (hit : i < items.length) :
      PoolStep items fn s
        ⟨s.nextIndex, s.workers.set w .idle,
          s.slots.set i (some (fn (items.get ⟨i, hit⟩)))⟩
  | exit (s : PoolState R) (w : Nat)
      (hw : s.workers[w]? = some .idle) (hi : items.length ≤ s.nextIndex) :
      PoolStep items fn s ⟨s.nextIndex, s.workers.set w .done, s.slots⟩

/-- States the pool can be in, for some interleaving of its workers. -/
def Reachable {T R : Type} (items : List T) (fn : T → R)
    (maxConcurrent : Int) (s : PoolState R) : Prop :=
  Relation.ReflTransGen (PoolStep items fn)
    (initState R maxConcurrent items.length) s

/-- All workers have exited: `Promise.all(workers)` has resolved. -/
def Terminal {R : Type} (s : PoolState R) : Prop :=
  s.workers.all isDone = true

/-- Number of uploads in flight. -/
def inFlight {R : Type} (s : PoolState R) : Nat :=
  (s.workers.filter isRunning).length

/-- The array `runWithConcurrency` returns (JS array holes are skipped by
the caller's `filter`). -/
def runResults {R : Type} (s : PoolState R) : List R :=
  s.slots.filterMap id

/-- One matched item handed to the upload pool: the changed spec, the video
file path on disk, and the video key (src/upload.ts lines 135-149). -/
structure MatchItem where
  spec : ChangedSpec
  videoPath : String
  videoKey : String
deriving DecidableEq, Repr

/-- A per-item upload attempt resolves to an `UploadResult` or `null`
(src/upload.ts lines 165-193); `uploadVideos` returns the pool's array with
the `null`s filtered out (line 196: `uploaded.filter(r => r !== null)`). -/
def uploadOutput (s : PoolState (Option UploadResult)) : List UploadResult :=
  (runResults s).filterMap id

/-- The pool's state invariant: the slots array keeps the item count; the
shared cursor never passes the end; a running worker holds a claimed index
below the cursor; every index below the cursor is either being worked on or
already holds its item's resolved outcome; and a worker only exits once the
cursor is exhausted. -/
def PoolInv {T R : Type} (items : List T) (fn : T → R) (s : PoolState R) : Prop :=
  s.slots.length = items.length
  ∧ s.nextIndex ≤ items.length
  ∧ (∀ (w i : Nat), s.workers[w]? = some (WStat.running i) → i < s.nextIndex)
  ∧ (∀ i : Nat, i < s.nextIndex →
      (∃ w : Nat, s.workers[w]? = some (WStat.running i))
      ∨ (∃ t, items[i]? = some t ∧ s.slots[i]? = some (some (fn t))))
  ∧ ((∃ w : Nat, s.workers[w]? = some WStat.done) → items.length ≤ s.nextIndex)

/-! ### The action entry point (src/main.ts `run`) -/

/-- A JavaScript thrown value: either an `Error` instance carrying a
message, or any other value (string, number, plain object, ...). -/
inductive Thrown where
  | errObj (message : String)
  | raw (val : String)
deriving DecidableEq, Repr

/-- The ambient inputs `run` reads: whether the event payload carries a pull
request, whether its head repo is a fork, the outcome of the diff provider,
and the results the upload stage would produce. -/
structure RunEnv where
  prPresent : Bool
  prIsFork : Bool
  diffResult : Except Thrown (List ChangedSpec)
  uploadResults : List UploadResult

/-- The externally observable outcome of one `run` invocation. -/
structure RunOutcome where
  uploadsAttempted : Bool
  commentAttempted : Bool
  failure : Option String
  outputs : Option (List UploadResult × Nat)
deriving DecidableEq, Repr

/-- Translation of `run` (src/main.ts lines 8-82): skip on a non-PR event or
a fork PR; fetch the changed specs, aborting into the catch handler if the
diff provider throws — `core.setFailed(error.message)` is called only when
the thrown value is an `Error` instance; then upload, comment, and set
outputs. -/
def run (env : RunEnv) : RunOutcome :=
  if env.prPresent = false then ⟨false, false, none, none⟩
  else if env.prIsFork = true then ⟨false, false, none, none⟩
  else
    match env.diffResult with
    | .error e =>
      ⟨false, false, (match e with | .errObj m => some m | .raw _ => none), none⟩
    | .ok specs =>
      if specs.isEmpty then ⟨false, false, none, some ([], 0)⟩
      else if env.uploadResults.isEmpty then ⟨true, false, none, some ([], 0)⟩
      else
        ⟨true, true, none,
          some (env.uploadResults, env.uploadResults.length)⟩

/-! ### Further string lemmas -/

theorem isPrefixOf_append_self (n m : List Char) : n.isPrefixOf (n ++ m) = true :=
  List.isPrefixOf_iff_prefix.mpr (List.prefix_append n m)

theorem listHasSub_of_isPrefixOf (n h : List Char) (hp : n.isPrefixOf h = true) :
    listHasSub n h = true := by
  cases h with
  | nil =>
    cases n with
    | nil => rfl
    | cons c t => simp [List.isPrefixOf] at hp
  | cons c t => simp [listHasSub, hp]

theorem listHasSub_append_left (a b n : List Char) (hb : listHasSub n b = true) :
    listHasSub n (a ++ b) = true := by
  induction a with
  | nil => simpa using hb
  | cons c t ih => simp [listHasSub, ih]

theorem listHasSub_append_right (a b n : List Char) (ha : listHasSub n a = true) :
    listHasSub n (a ++ b) = true := by
  induction a with
  | nil =>
    simp [listHasSub] at ha
    exact listHasSub_of_isPrefixOf _ _ (by simp [ha, List.isPrefixOf])
  | cons c t ih =>
    simp only [listHasSub, Bool.or_eq_true] at ha ⊢
    rcases ha with hpre | hrest
    · left
      apply List.isPrefixOf_iff_prefix.mpr
      exact (List.isPrefixOf_iff_prefix.mp hpre).trans (List.prefix_append (c :: t) b)
    · right; exact ih hrest

theorem strIncludes_append_left (a b n : String) (hb : strIncludes b n = true) :
    strIncludes (a ++ b) n = true := by
  unfold strIncludes at hb ⊢
  rw [String.data_append]
  exact listHasSub_append_left _ _ _ hb

theorem strIncludes_append_right (a b n : String) (ha : strIncludes a n = true) :
    strIncludes (a ++ b) n = true := by
  unfold strIncludes at ha ⊢
  rw [String.data_append]
  exact listHasSub_append_right _ _ _ ha

theorem strIncludes_self_append (a b : String) : strIncludes (a ++ b) a = true := by
  unfold strIncludes
  rw [String.data_append]
  exact listHasSub_of_isPrefixOf _ _ (isPrefixOf_append_self _ _)

theorem strEndsWith_append (a b : String) : strEndsWith (a ++ b) b = true := by
  unfold strEndsWith
  rw [String.data_append]
  exact List.isSuffixOf_iff_suffix.mpr (List.suffix_append a.data b.data)

theorem strEndsWith_refl (a : String) : strEndsWith a a = true :=
  List.isSuffixOf_iff_suffix.mpr (List.suffix_refl a.data)

theorem strEndsWith_append_of (a b t : String) (h : strEndsWith b t = true) :
    strEndsWith (a ++ b) t = true := by
  unfold strEndsWith at h ⊢
  rw [String.data_append]
  exact List.isSuffixOf_iff_suffix.mpr
    ((List.isSuffixOf_iff_suffix.mp h).trans (List.suffix_append a.data b.data))

theorem strIncludes_refl (a : String) : strIncludes a a = true := by
  unfold strIncludes
  exact listHasSub_of_isPrefixOf _ _
    (List.isPrefixOf_iff_prefix.mpr (List.prefix_refl a.data))

theorem joinLines_includes (l : List String) (s : String) (hs : s ∈ l) :
    strIncludes (joinLines l) s = true := by
  induction l with
  | nil => cases hs
  | cons x t ih =>
    cases t with
    | nil =>
      have hx : s = x := by simpa using hs
      subst hx
      exact strIncludes_refl s
    | cons y t' =>
      rcases List.mem_cons.mp hs with rfl | hmem
      · exact strIncludes_append_right _ _ _
          (strIncludes_append_right _ _ _ (strIncludes_refl s))
      · exact strIncludes_append_left _ _ _ (ih hmem)

/-! ### C8: the expiry trailer -/

/-- C8: for every header, results list, and expirySeconds, the comment body
ends with a trailer stating the expiry as round(expirySeconds / 3600) whole
hours; with 259200 the body contains "72 hours", with 3600 it contains
"1 hours" literally (no plural correction). -/
theorem buildCommentBody_expiry_hours :
    (∀ (header : String) (results : List UploadResult) (e : Nat),
      strEndsWith (buildCommentBody header results e)
        ("> Videos expire " ++ toString (jsRoundDiv e 3600)
          ++ " hours after upload.") = true)
    ∧ (∀ (header : String) (results : List UploadResult),
      strIncludes (buildCommentBody header results 259200) "72 hours" = true)
    ∧ (∀ (header : String) (results : List UploadResult),
      strIncludes (buildCommentBody header results 3600) "1 hours" = true) := by
  refine ⟨fun header results e => ?_, fun header results => ?_, fun header results => ?_⟩
  · exact strEndsWith_append_of _ _ _ (strEndsWith_refl (expiryTrailer e))
  · exact strIncludes_append_left _ _ _ (by decide)
  · exact strIncludes_append_left _ _ _ (by decide)

/-! ### C9: display modes of the comment body -/

/-- C9 counterexample: `buildCommentBody` has no display-mode parameter and
renders only the markdown table; at a concrete input its body contains the
table header and a table row, and no `<details` collapsible block at all, so
there is no inline mode. -/
theorem buildCommentBody_no_inline_counterexample :
    strIncludes
      (buildCommentBody "### Videos"
        [⟨"cypress/e2e/auth/login.cy.ts", "https://example.com/v1"⟩] 259200)
      "<details" = false
    ∧ strIncludes
      (buildCommentBody "### Videos"
        [⟨"cypress/e2e/auth/login.cy.ts", "https://example.com/v1"⟩] 259200)
      "| Spec | Video |" = true
    ∧ strIncludes
      (buildCommentBody "### Videos"
        [⟨"cypress/e2e/auth/login.cy.ts", "https://example.com/v1"⟩] 259200)
      "| `auth/login.cy.ts` | [▶️ Watch](https://example.com/v1) |" = true := by
  refine ⟨?_, ?_, ?_⟩ <;> decide

/-- C9 (amended): `buildCommentBody` has a single, table display mode: for
every results list, the body contains, for each result, a two-column
markdown table row pairing the backticked display name (the spec path
reduced to its last two path segments) with a "Watch" link to the result's
URL. -/
theorem buildCommentBody_table_rows (header : String) (e : Nat)
    (results : List UploadResult) (r : UploadResult) (hr : r ∈ results) :
    strIncludes (buildCommentBody header results e)
      ("| `" ++ getDisplayName r.spec ++ "` | [▶️ Watch](" ++ r.url ++ ") |")
      = true := by
  refine strIncludes_append_right _ _ _ (strIncludes_append_right _ _ _ ?_)
  exact strIncludes_append_left _ _ _
    (joinLines_includes _ _ (List.mem_map_of_mem rowFor hr))

/-- C9 witness: the amended table-row theorem at a concrete input. -/
theorem buildCommentBody_table_rows_witness :
    strIncludes
      (buildCommentBody "### Videos"
        [⟨"cypress/e2e/auth/login.cy.ts", "https://example.com/v1"⟩] 259200)
      ("| `" ++ getDisplayName "cypress/e2e/auth/login.cy.ts"
        ++ "` | [▶️ Watch](https://example.com/v1) |") = true :=
  buildCommentBody_table_rows "### Videos" 259200 _
    ⟨"cypress/e2e/auth/login.cy.ts", "https://example.com/v1"⟩ (by decide)

/-! ### C1: suffix matching with longest-match tie-break -/

theorem findLoop_none (s sep : String) :
    ∀ (l : List (String × String)) (b : Option (String × String)) (n : Nat),
    findLoop s sep l b n = none → b = none := by
  intro l
  induction l with
  | nil => intro b n h; simpa [findLoop] using h
  | cons kv rest ih =>
    intro b n h
    rw [findLoop] at h
    split at h
    · exact absurd (ih _ _ h) (by simp)
    · exact ih _ _ h

theorem findLoop_mem (s sep : String) :
    ∀ (l : List (String × String)) (b : Option (String × String)) (n : Nat)
      (kv : String × String),
    findLoop s sep l b n = some kv → b = some kv ∨ kv ∈ l := by
  intro l
  induction l with
  | nil => intro b n kv h; left; simpa [findLoop] using h
  | cons hd rest ih =>
    intro b n kv h
    rw [findLoop] at h
    split at h
    · rcases ih _ _ _ h with hb | hmem
      · right
        simp only [Option.some_inj] at hb
        rw [← hb]
        exact List.mem_cons_self _ _
      · right; exact List.mem_cons_of_mem _ hmem
    · rcases ih _ _ _ h with hb | hmem
      · left; exact hb
      · right; exact List.mem_cons_of_mem _ hmem

theorem findLoop_cond (s sep : String) :
    ∀ (l : List (String × String)) (b : Option (String × String)) (n : Nat)
      (kv : String × String),
    (∀ kv', b = some kv' → matchCond s sep kv'.1 = true ∧ 0 < kv'.1.length) →
    findLoop s sep l b n = some kv →
    matchCond s sep kv.1 = true ∧ 0 < kv.1.length := by
  intro l
  induction l with
  | nil =>
    intro b n kv hb h
    exact hb kv (by simpa [findLoop] using h)
  | cons hd rest ih =>
    intro b n kv hb h
    rw [findLoop] at h
    split at h
    · rename_i hcase
      refine ih _ _ _ ?_ h
      intro kv' hkv'
      simp only [Option.some_inj] at hkv'
      subst hkv'
      exact ⟨hcase.1, Nat.lt_of_le_of_lt (Nat.zero_le _) hcase.2⟩
    · exact ih _ _ _ hb h

theorem findLoop_ge (s sep : String) :
    ∀ (l : List (String × String)) (b : Option (String × String)) (n : Nat),
    (∀ kv', b = some kv' → n ≤ kv'.1.length) →
    n ≤ resLen (findLoop s sep l b n) n := by
  intro l
  induction l with
  | nil =>
    intro b n hb
    rw [findLoop]
    cases b with
    | none => simp [resLen]
    | some kv' => simpa [resLen] using hb kv' rfl
  | cons hd rest ih =>
    intro b n hb
    rw [findLoop]
    split
    · rename_i hcase
      have hres := ih (some hd) hd.1.length (by intro kv' h; simp only [Option.some_inj] at h; subst h; exact Nat.le_refl _)
      rcases hr : findLoop s sep rest (some hd) hd.1.length with _ | kv'
      · exact absurd (findLoop_none s sep rest _ _ hr) (by simp)
      · rw [hr] at hres
        simp only [resLen] at hres ⊢
        exact Nat.le_trans (Nat.le_of_lt hcase.2) hres
    · exact ih b n hb

theorem findLoop_max (s sep : String) :
    ∀ (l : List (String × String)) (b : Option (String × String)) (n : Nat),
    (∀ kv', b = some kv' → n ≤ kv'.1.length) →
    ∀ kv ∈ l, matchCond s sep kv.1 = true →
    kv.1.length ≤ resLen (findLoop s sep l b n) n := by
  intro l
  induction l with
  | nil => intro b n hb kv hmem; cases hmem
  | cons hd rest ih =>
    intro b n hb kv hmem hcond
    rw [findLoop]
    split
    · rename_i hcase
      have hinv : ∀ kv', (some hd : Option (String × String)) = some kv' →
          hd.1.length ≤ kv'.1.length := by
        intro kv' h; simp only [Option.some_inj] at h; subst h; exact Nat.le_refl _
      rcases List.mem_cons.mp hmem with heq | hmem'
      · have hres := findLoop_ge s sep rest (some hd) hd.1.length hinv
        rcases hr : findLoop s sep rest (some hd) hd.1.length with _ | kv'
        · exact absurd (findLoop_none s sep rest _ _ hr) (by simp)
        · rw [hr] at hres
          rw [heq]
          simpa [resLen] using hres
      · have := ih (some hd) hd.1.length hinv kv hmem' hcond
        rcases hr : findLoop s sep rest (some hd) hd.1.length with _ | kv'
        · exact absurd (findLoop_none s sep rest _ _ hr) (by simp)
        · rw [hr] at this
          simpa [resLen] using this
    · rename_i hcase
      rcases List.mem_cons.mp hmem with heq | hmem'
      · have hlen : kv.1.length ≤ n := by
          rcases Nat.lt_or_ge n kv.1.length with hlt | hge
          · rw [heq] at hcond hlt
            exact absurd ⟨hcond, hlt⟩ hcase
          · exact hge
        exact Nat.le_trans hlen (findLoop_ge s sep rest b n hb)
      · exact ih b n hb kv hmem' hcond

/-- C1 counterexample: the empty-string key satisfies the match condition
for spec path "a/" (which ends in "/"), yet `findMatchingVideo` returns
`none` for the one-entry map holding it, because the best-match length
starts at 0 and is only beaten strictly. The claim requires the matching
entry to be returned here. -/
theorem findMatchingVideo_empty_key_counterexample :
    matchCond "a/" "/" "" = true
    ∧ findMatchingVideo "a/" "/" [("", "p")] = none := by
  refine ⟨?_, ?_⟩ <;> decide

/-- C1 (amended): whenever `findMatchingVideo` returns an entry, that entry
is in the map, its key matches (equality, or a `/`- or separator-delimited
suffix of the spec path), its key is nonempty, and its key has the greatest
length among all matching keys; when it returns `none`, every matching key
of the map is the empty string (the claim as stated fails only for the
empty-string key, which is never returned). -/
theorem findMatchingVideo_longest_suffix_match (s sep : String)
    (m : List (String × String)) :
    (∀ kv, findMatchingVideo s sep m = some kv →
      kv ∈ m ∧ matchCond s sep kv.1 = true ∧ 0 < kv.1.length ∧
        ∀ kv' ∈ m, matchCond s sep kv'.1 = true → kv'.1.length ≤ kv.1.length)
    ∧ (findMatchingVideo s sep m = none →
      ∀ kv ∈ m, matchCond s sep kv.1 = true → kv.1 = "") := by
  constructor
  · intro kv h
    have hmem : kv ∈ m := by
      rcases findLoop_mem s sep m none 0 kv h with hb | hmem
      · cases hb
      · exact hmem
    have hcond := findLoop_cond s sep m none 0 kv (by intro kv' h'; cases h') h
    refine ⟨hmem, hcond.1, hcond.2, ?_⟩
    intro kv' hmem' hcond'
    have := findLoop_max s sep m none 0 (by intro kv'' h'; cases h') kv' hmem' hcond'
    rw [show findLoop s sep m none 0 = some kv from h] at this
    simpa [resLen] using this
  · intro hnone kv hmem hcond
    have := findLoop_max s sep m none 0 (by intro kv'' h'; cases h') kv hmem hcond
    rw [show findLoop s sep m none 0 = none from hnone] at this
    have hdata : kv.1.data = [] := by
      have hz : kv.1.length = 0 := Nat.le_zero.mp (by simpa [resLen] using this)
      exact List.length_eq_zero.mp hz
    exact String.ext (by simp [hdata])

/-- C1 witness: the amended theorem applied at the spec's own example, index
keys login.cy.ts and auth/login.cy.ts against spec path
cypress/e2e/auth/login.cy.ts: the longer key is returned, is a member, and
matches. -/
theorem findMatchingVideo_longest_suffix_match_witness :
    ("auth/login.cy.ts", "p2") ∈ [("login.cy.ts", "p1"), ("auth/login.cy.ts", "p2")]
    ∧ matchCond "cypress/e2e/auth/login.cy.ts" "/" "auth/login.cy.ts" = true
    ∧ 0 < ("auth/login.cy.ts" : String).length := by
  have h := (findMatchingVideo_longest_suffix_match "cypress/e2e/auth/login.cy.ts" "/"
    [("login.cy.ts", "p1"), ("auth/login.cy.ts", "p2")]).1
    ("auth/login.cy.ts", "p2") (by decide)
  exact ⟨h.1, h.2.1, h.2.2.1⟩

/-! ### C5: the video file index -/

theorem append_slash_ne_empty (a b : String) : a ++ "/" ++ b ≠ "" := by
  intro h
  have hd := congrArg String.data h
  simp [String.data_append] at hd

theorem relJoin_assoc (rel name r : String) (hn : name ≠ "") :
    relJoin (relJoin rel name) r = relJoin rel (name ++ "/" ++ r) := by
  by_cases hrel : rel = ""
  · subst hrel
    simp [relJoin, hn]
  · simp only [relJoin, if_neg hrel, if_neg (append_slash_ne_empty rel name)]
    apply String.ext
    simp [String.data_append]

theorem mp4Entry_shift (base rel name : String) (hn : name ≠ "")
    (p : String × String) :
    mp4Entry base rel (name ++ "/" ++ p.1, p.2)
      = mp4Entry base (relJoin rel name) p := by
  unfold mp4Entry
  rw [relJoin_assoc rel name p.1 hn]

mutual

theorem walkOne_eq (base rel : String) (t : FsTree) (h : dirsOkOne t = true) :
    walkOne base rel t = (allFilesOne t).filterMap (mp4Entry base rel) := by
  cases t with
  | file name =>
    by_cases hc : strEndsWith name ".mp4" = true
    · simp [walkOne, allFilesOne, mp4Entry, hc]
    · simp [walkOne, allFilesOne, mp4Entry, hc]
  | dir name children =>
    have hsplit : (name != "") = true ∧ dirsOkMany children = true := by
      simpa [dirsOkOne, Bool.and_eq_true] using h
    have hn : name ≠ "" := by simpa using hsplit.1
    rw [walkOne, allFilesOne, walkMany_eq base (relJoin rel name) children hsplit.2,
      List.filterMap_map]
    have hfun : mp4Entry base (relJoin rel name)
        = (fun p : String × String => mp4Entry base rel (name ++ "/" ++ p.1, p.2)) := by
      funext p
      rw [mp4Entry_shift base rel name hn p]
    rw [hfun]
    rfl

theorem walkMany_eq (base rel : String) (ts : List FsTree)
    (h : dirsOkMany ts = true) :
    walkMany base rel ts = (allFilesMany ts).filterMap (mp4Entry base rel) := by
  cases ts with
  | nil => simp [walkMany, allFilesMany]
  | cons t ts' =>
    have hsplit : dirsOkOne t = true ∧ dirsOkMany ts' = true := by
      simpa [dirsOkMany, Bool.and_eq_true] using h
    rw [walkMany, allFilesMany, List.filterMap_append,
      walkOne_eq base rel t hsplit.1, walkMany_eq base rel ts' hsplit.2]

end

/-- C5: `collectVideoFiles` on a nonexistent root yields the empty index
without error; on an existing root (with nonempty directory names, as on any
real filesystem) it indexes exactly the files whose name ends with `.mp4`,
each under the key given by its path relative to the root with the last four
characters (the `.mp4` suffix) stripped, mapped to its full path under the
root; files not ending in `.mp4` are never indexed. -/
theorem collectVideoFiles_mp4_index (d : String) :
    collectVideoFiles d none = []
    ∧ ∀ entries, dirsOkMany entries = true →
      collectVideoFiles d (some entries)
        = (allFilesMany entries).filterMap (fun p =>
            if strEndsWith p.2 ".mp4" = true then
              some (dropLast4 p.1, d ++ "/" ++ p.1)
            else none) := by
  refine ⟨rfl, fun entries h => ?_⟩
  have hw := walkMany_eq d "" entries h
  rw [show collectVideoFiles d (some entries) = walkMany d "" entries from rfl, hw]
  have : mp4Entry d "" = (fun p : String × String =>
      if strEndsWith p.2 ".mp4" = true then
        some (dropLast4 p.1, d ++ "/" ++ p.1)
      else none) := by
    funext p
    simp [mp4Entry, relJoin]
  rw [this]

/-- C5 witness: the index theorem at a concrete tree
(a/b/c.ext.mp4, a/b/notes.txt, top.mp4 under root "root"). -/
theorem collectVideoFiles_mp4_index_witness :
    dirsOkMany [FsTree.dir "a" [FsTree.dir "b"
        [FsTree.file "c.ext.mp4", FsTree.file "notes.txt"]], FsTree.file "top.mp4"]
      = true
    ∧ collectVideoFiles "root" (some [FsTree.dir "a" [FsTree.dir "b"
        [FsTree.file "c.ext.mp4", FsTree.file "notes.txt"]], FsTree.file "top.mp4"])
      = [("a/b/c.ext", "root/a/b/c.ext.mp4"), ("top", "root/top.mp4")] := by
  have h := (collectVideoFiles_mp4_index "root").2
    [FsTree.dir "a" [FsTree.dir "b"
      [FsTree.file "c.ext.mp4", FsTree.file "notes.txt"]], FsTree.file "top.mp4"]
    (by decide)
  refine ⟨by decide, ?_⟩
  rw [h]
  decide

/-! ### C3: the comment upsert -/

theorem buildCommentBody_marked (header : String) (results : List UploadResult)
    (e : Nat) :
    strIncludes (buildCommentBody header results e) COMMENT_MARKER = true := by
  exact strIncludes_append_right _ _ _ (strIncludes_append_right _ _ _
    (strIncludes_append_right _ _ _ (strIncludes_append_right _ _ _
      (strIncludes_append_right _ _ _ (strIncludes_append_right _ _ _
        (strIncludes_refl _))))))

theorem scanLoop_eq_find : ∀ store : List Comment,
    scanLoop store = store.find? marked := by
  have key : ∀ n (store : List Comment), store.length ≤ n →
      scanLoop store = store.find? marked := by
    intro n
    induction n with
    | zero =>
      intro store h
      have hnil : store = [] := List.length_eq_zero.mp (Nat.le_zero.mp h)
      subst hnil
      rw [scanLoop]
      simp
    | succ n ih =>
      intro store h
      rw [scanLoop]
      by_cases hemp : (store.take 100).isEmpty = true
      · have hnil : store = [] := by
          rcases store with _ | ⟨c, t⟩
          · rfl
          · simp [List.isEmpty] at hemp
        subst hnil
        simp
      · rw [if_neg hemp]
        rcases hf : (store.take 100).find? marked with _ | c
        · by_cases hlen : (store.take 100).length < 100
          · rw [if_pos hlen]
            have hlt : store.length < 100 := by
              rw [List.length_take] at hlen
              omega
            have htake : store.take 100 = store :=
              List.take_of_length_le (Nat.le_of_lt hlt)
            rw [htake] at hf
            exact hf.symm
          · rw [if_neg hlen]
            have hrec := ih (store.drop 100)
              (by
                rw [List.length_drop]
                rw [List.length_take] at hlen
                omega)
            rw [hrec]
            conv_rhs => rw [← List.take_append_drop 100 store]
            rw [List.find?_append, hf]
            rfl
        · have : store.find? marked = some c := by
            conv_lhs => rw [← List.take_append_drop 100 store]
            rw [List.find?_append, hf]
            rfl
          rw [this]
  exact fun store => key store.length store (Nat.le_refl _)

theorem countMarked_map (store : List Comment) (f : Comment → Comment)
    (hf : ∀ x ∈ store, marked (f x) = marked x) :
    countMarked (store.map f) = countMarked store := by
  unfold countMarked
  rw [List.filter_map, List.length_map]
  congr 1
  exact List.filter_congr (by intro x hx; simpa using hf x hx)

theorem countMarked_append (a b : List Comment) :
    countMarked (a ++ b) = countMarked a + countMarked b := by
  unfold countMarked
  rw [List.filter_append, List.length_append]

theorem countMarked_eq_zero (store : List Comment)
    (h : store.find? marked = none) : countMarked store = 0 := by
  unfold countMarked
  have : store.filter marked = [] := by
    rw [List.filter_eq_nil_iff]
    exact List.find?_eq_none.mp h
  rw [this]
  rfl

theorem countMarked_pos (store : List Comment) (c : Comment) (hmem : c ∈ store)
    (hc : marked c = true) : 1 ≤ countMarked store := by
  unfold countMarked
  have : c ∈ store.filter marked := List.mem_filter.mpr ⟨hmem, hc⟩
  exact List.length_pos.mpr (fun hnil => by rw [hnil] at this; cases this)

/-- C3: for a non-empty results list, `postOrUpdateComment` searches the
comment pages in order and finds exactly the first comment whose body
contains the marker; it then performs exactly one action — updating that
comment's body in place when one was found, creating exactly one new
comment otherwise — and, provided comment ids are unique and the pull
request carried at most one marked comment before the run, at most one
marked comment remains after it. -/
theorem postOrUpdateComment_single_marked
    (store : List Comment) (results : List UploadResult)
    (header : String) (e : Nat) (freshId : Nat)
    (hres : results ≠ [])
    (hids : (store.map Comment.id).Nodup)
    (hcount : countMarked store ≤ 1) :
    scanLoop store = store.find? marked
    ∧ ((∃ c, store.find? marked = some c
        ∧ postOrUpdateComment store results header e freshId
          = (store.map (fun x => if x.id = c.id then
              { x with body := buildCommentBody header results e } else x),
            .updated c.id))
      ∨ (store.find? marked = none
        ∧ postOrUpdateComment store results header e freshId
          = (store ++ [⟨freshId, buildCommentBody header results e⟩], .created)))
    ∧ countMarked (postOrUpdateComment store results header e freshId).1 ≤ 1 := by
  have hscan := scanLoop_eq_find store
  have hne : ¬ results.isEmpty = true := fun hemp => hres (List.isEmpty_iff.mp hemp)
  refine ⟨hscan, ?_, ?_⟩
  · unfold postOrUpdateComment
    rw [if_neg hne, hscan]
    rcases hf : store.find? marked with _ | c
    · right
      exact ⟨rfl, rfl⟩
    · left
      exact ⟨c, rfl, rfl⟩
  · unfold postOrUpdateComment
    rw [if_neg hne, hscan]
    rcases hf : store.find? marked with _ | c
    · have hzero := countMarked_eq_zero store hf
      rw [countMarked_append, hzero]
      have hnew : countMarked [⟨freshId, buildCommentBody header results e⟩] = 1 := by
        simp [countMarked, List.filter_cons, marked, buildCommentBody_marked]
      rw [hnew]
    · have hcmem := List.mem_of_find?_eq_some hf
      have hcm : marked c = true := List.find?_some hf
      have hpt : ∀ x ∈ store,
          marked (if x.id = c.id then
            { x with body := buildCommentBody header results e } else x)
            = marked x := by
        intro x hx
        by_cases hid : x.id = c.id
        · have hxc : x = c := List.inj_on_of_nodup_map hids hx hcmem hid
          subst hxc
          rw [if_pos hid]
          rw [show marked { x with body := buildCommentBody header results e } = true
            from buildCommentBody_marked header results e]
          rw [hcm]
        · rw [if_neg hid]
      rw [countMarked_map store _ hpt]
      exact hcount

/-- C3 witness: the upsert theorem on a concrete store of three comments
whose second one is marked. -/
theorem postOrUpdateComment_single_marked_witness :
    countMarked (postOrUpdateComment
      [⟨1, "hello"⟩, ⟨2, "<!-- cypress-pr-videos --> old table"⟩, ⟨3, "lgtm"⟩]
      [⟨"cypress/e2e/a.cy.ts", "https://u"⟩] "H" 3600 99).1 ≤ 1
    ∧ scanLoop
        [⟨1, "hello"⟩, ⟨2, "<!-- cypress-pr-videos --> old table"⟩, ⟨3, "lgtm"⟩]
      = List.find? marked
        [⟨1, "hello"⟩, ⟨2, "<!-- cypress-pr-videos --> old table"⟩, ⟨3, "lgtm"⟩] := by
  have h := postOrUpdateComment_single_marked
    [⟨1, "hello"⟩, ⟨2, "<!-- cypress-pr-videos --> old table"⟩, ⟨3, "lgtm"⟩]
    [⟨"cypress/e2e/a.cy.ts", "https://u"⟩] "H" 3600 99
    (by decide) (by decide) (by decide)
  exact ⟨h.2.2, h.1⟩

/-! ### C7: pagination of the marker search -/

/-- C7 counterexample: the search loop has no hard upper bound on the number
of pages scanned — against a page source that serves a full, marker-free
page forever, the loop reaches every page, so no bound B caps the pages
visited. -/
theorem scan_unbounded_counterexample :
    ¬ ∃ B : Nat, ∀ k : Nat,
      scanVisits (fun _ => List.replicate 100 (⟨0, "x"⟩ : Comment)) k → k ≤ B := by
  rintro ⟨B, hB⟩
  have hcont : continuePaging (List.replicate 100 (⟨0, "x"⟩ : Comment)) = true := by
    decide
  have hvisit : scanVisits (fun _ => List.replicate 100 (⟨0, "x"⟩ : Comment)) (B + 2) :=
    fun _ _ _ => hcont
  have := hB (B + 2) hvisit
  omega

/-- C7 (amended): against any finite comment history the search terminates —
it exits when the marker is found, or a page is empty, or a page is short,
and therefore visits at most length/100 + 1 pages; but the code has no hard
page-count bound, so only the finiteness of the history bounds the scan. -/
theorem scan_pages_finite_bound (store : List Comment) (k : Nat)
    (h : scanVisits (pageOf store) k) : k ≤ store.length / 100 + 1 := by
  by_cases hk : k ≤ 1
  · omega
  · have hcont := h (k - 1) (by omega) (by omega)
    have hlen : 100 ≤ (pageOf store (k - 1)).length := by
      unfold continuePaging at hcont
      simp only [Bool.and_eq_true, decide_eq_true_eq] at hcont
      exact hcont.2
    unfold pageOf at hlen
    rw [List.length_take, List.length_drop] at hlen
    omega

/-- C7 witness: the finite-history page bound at a concrete 150-comment
history: a scan that visited pages 1 and 2 is within the bound 150/100 + 1. -/
theorem scan_pages_finite_bound_witness :
    (2 : Nat) ≤ (List.replicate 150 (⟨0, "x"⟩ : Comment)).length / 100 + 1 := by
  have h := scan_pages_finite_bound (List.replicate 150 (⟨0, "x"⟩ : Comment)) 2
    (by
      intro j h1 h2
      have hj : j = 1 := by omega
      subst hj
      decide)
  exact h

/-! ### C6: fatal diff-provider failures -/

/-- C6 counterexample: when the diff provider throws a non-Error value (here
the string "boom"), the run aborts with no upload or comment work but emits
no terminal failure signal at all — `core.setFailed` is guarded by
`error instanceof Error` — contradicting the claim that every thrown value
produces a failure signal carrying its message. -/
theorem run_nonError_silent_counterexample :
    (run ⟨true, false, .error (.raw "boom"), []⟩).uploadsAttempted = false
    ∧ (run ⟨true, false, .error (.raw "boom"), []⟩).commentAttempted = false
    ∧ (run ⟨true, false, .error (.raw "boom"), []⟩).failure = none := by
  refine ⟨rfl, rfl, rfl⟩

/-- C6 (amended): whenever the diff provider throws, the run aborts before
any upload or comment work and sets no outputs; it produces a terminal
failure signal carrying the thrown error's message exactly when the thrown
value is an `Error` instance, and aborts silently on any other thrown
value. -/
theorem run_diff_failure_aborts (env : RunEnv) (e : Thrown)
    (hpr : env.prPresent = true) (hfork : env.prIsFork = false)
    (hdiff : env.diffResult = .error e) :
    (run env).uploadsAttempted = false
    ∧ (run env).commentAttempted = false
    ∧ (run env).outputs = none
    ∧ (run env).failure
        = (match e with | .errObj m => some m | .raw _ => none) := by
  cases e <;> simp [run, hpr, hfork, hdiff]

/-- C6 witness: a run whose diff provider throws an `Error` with message
"diff exploded" aborts with exactly that failure message. -/
theorem run_diff_failure_aborts_witness :
    (run ⟨true, false, .error (.errObj "diff exploded"), []⟩).uploadsAttempted = false
    ∧ (run ⟨true, false, .error (.errObj "diff exploded"), []⟩).commentAttempted = false
    ∧ (run ⟨true, false, .error (.errObj "diff exploded"), []⟩).outputs = none
    ∧ (run ⟨true, false, .error (.errObj "diff exploded"), []⟩).failure
        = some "diff exploded" := by
  have h := run_diff_failure_aborts ⟨true, false, .error (.errObj "diff exploded"), []⟩
    (.errObj "diff exploded") rfl rfl rfl
  exact h

/-! ### C4, C10, C2: the worker pool -/

theorem reachable_workers_length {T R : Type} (items : List T) (fn : T → R)
    (mc : Int) (s : PoolState R) (h : Reachable items fn mc s) :
    s.workers.length = numWorkers mc items.length := by
  induction h with
  | refl => simp [initState]
  | tail hprev hstep ih =>
    cases hstep with
    | claim w hw hi => simpa [List.length_set] using ih
    | finish w i hw hit => simpa [List.length_set] using ih
    | exit w hw hi => simpa [List.length_set] using ih

theorem poolInv_init {T R : Type} (items : List T) (fn : T → R) (mc : Int) :
    PoolInv items fn (initState R mc items.length) := by
  refine ⟨by simp [initState], by simp [initState], ?_, ?_, ?_⟩
  · intro w i hw
    rw [initState] at hw
    simp only [List.getElem?_replicate] at hw
    by_cases hwl : w < numWorkers mc items.length
    · rw [if_pos hwl] at hw
      cases hw
    · rw [if_neg hwl] at hw
      cases hw
  · intro i hi
    simp [initState] at hi
  · rintro ⟨w, hw⟩
    rw [initState] at hw
    simp only [List.getElem?_replicate] at hw
    by_cases hwl : w < numWorkers mc items.length
    · rw [if_pos hwl] at hw
      cases hw
    · rw [if_neg hwl] at hw
      cases hw

theorem poolStep_inv {T R : Type} (items : List T) (fn : T → R)
    (s t : PoolState R) (hstep : PoolStep items fn s t)
    (hinv : PoolInv items fn s) : PoolInv items fn t := by
  obtain ⟨hlen, hni, hrun, hwr, hdone⟩ := hinv
  cases hstep with
  | claim w hw hi =>
    have hwlt : w < s.workers.length := (List.getElem?_eq_some.mp hw).1
    refine ⟨hlen, hi, ?_, ?_, ?_⟩
    · intro w' i hw'
      rw [List.getElem?_set] at hw'
      by_cases hww : w = w'
      · rw [if_pos hww, if_pos hwlt] at hw'
        simp only [Option.some_inj] at hw'
        cases hw'
        exact Nat.lt_succ_self _
      · rw [if_neg hww] at hw'
        exact Nat.lt_succ_of_lt (hrun w' i hw')
    · intro i hi'
      rcases Nat.lt_succ_iff_lt_or_eq.mp hi' with hlt | heq
      · rcases hwr i hlt with ⟨w', hw'⟩ | hslot
        · have hww : w ≠ w' := by
            intro hww
            subst hww
            rw [hw'] at hw
            cases hw
          left
          exact ⟨w', by rw [List.getElem?_set_ne hww]; exact hw'⟩
        · right; exact hslot
      · subst heq
        left
        exact ⟨w, by rw [List.getElem?_set_self hwlt]⟩
    · rintro ⟨w', hw'⟩
      rw [List.getElem?_set] at hw'
      by_cases hww : w = w'
      · rw [if_pos hww, if_pos hwlt] at hw'
        cases hw'
      · rw [if_neg hww] at hw'
        exact Nat.le_succ_of_le (hdone ⟨w', hw'⟩)
  | finish w i hw hit =>
    have hwlt : w < s.workers.length := (List.getElem?_eq_some.mp hw).1
    have hilt : i < s.slots.length := by rw [hlen]; exact hit
    refine ⟨by rw [List.length_set]; exact hlen, hni, ?_, ?_, ?_⟩
    · intro w' j hw'
      rw [List.getElem?_set] at hw'
      by_cases hww : w = w'
      · rw [if_pos hww, if_pos hwlt] at hw'
        cases hw'
      · rw [if_neg hww] at hw'
        exact hrun w' j hw'
    · intro j hj
      by_cases hji : j = i
      · subst hji
        right
        exact ⟨items.get ⟨j, hit⟩, List.getElem?_eq_getElem hit,
          by rw [List.getElem?_set_self hilt]⟩
      · rcases hwr j hj with ⟨w', hw'⟩ | hslot
        · have hww : w ≠ w' := by
            intro hww
            subst hww
            rw [hw'] at hw
            simp only [Option.some_inj] at hw
            cases hw
            exact hji rfl
          left
          exact ⟨w', by rw [List.getElem?_set_ne hww]; exact hw'⟩
        · right
          rcases hslot with ⟨u, hts, htv⟩
          exact ⟨u, hts, by rw [List.getElem?_set_ne (fun h => hji h.symm)]; exact htv⟩
    · rintro ⟨w', hw'⟩
      rw [List.getElem?_set] at hw'
      by_cases hww : w = w'
      · rw [if_pos hww, if_pos hwlt] at hw'
        cases hw'
      · rw [if_neg hww] at hw'
        exact hdone ⟨w', hw'⟩
  | exit w hw hi =>
    refine ⟨hlen, hni, ?_, ?_, fun _ => hi⟩
    · intro w' j hw'
      rw [List.getElem?_set] at hw'
      by_cases hww : w = w'
      · have hwlt : w < s.workers.length := (List.getElem?_eq_some.mp hw).1
        rw [if_pos hww, if_pos hwlt] at hw'
        cases hw'
      · rw [if_neg hww] at hw'
        exact hrun w' j hw'
    · intro j hj
      rcases hwr j hj with ⟨w', hw'⟩ | hslot
      · have hww : w ≠ w' := by
          intro hww
          subst hww
          rw [hw'] at hw
          cases hw
        left
        exact ⟨w', by rw [List.getElem?_set_ne hww]; exact hw'⟩
      · right; exact hslot

theorem reachable_inv {T R : Type} (items : List T) (fn : T → R) (mc : Int)
    (s : PoolState R) (h : Reachable items fn mc s) : PoolInv items fn s := by
  induction h with
  | refl => exact poolInv_init items fn mc
  | tail hprev hstep ih => exact poolStep_inv _ _ _ _ hstep ih

theorem pool_terminal_slots {T R : Type} (items : List T) (fn : T → R)
    (mc : Int) (s : PoolState R) (hr : Reachable items fn mc s)
    (ht : Terminal s) (hmc : 1 ≤ mc) :
    s.slots = items.map (fun t => some (fn t)) := by
  obtain ⟨hlen, hni, hrun, hwr, hdone⟩ := reachable_inv items fn mc s hr
  have hwl := reachable_workers_length items fn mc s hr
  have hnorun : ∀ (w i : Nat), ¬ s.workers[w]? = some (WStat.running i) := by
    intro w i hw
    rcases List.getElem?_eq_some.mp hw with ⟨hlt, hget⟩
    have hmem : WStat.running i ∈ s.workers := hget ▸ List.getElem_mem hlt
    have := List.all_eq_true.mp ht _ hmem
    simp [isDone] at this
  have hfin : items.length ≤ s.nextIndex := by
    rcases Nat.eq_zero_or_pos items.length with hz | hpos
    · omega
    · have hnw : 0 < numWorkers mc items.length := by
        unfold numWorkers
        omega
      have h0 : 0 < s.workers.length := by rw [hwl]; exact hnw
      have hmem := List.getElem_mem h0
      have hd := List.all_eq_true.mp ht _ hmem
      rcases hst : s.workers[0] with _ | i | _
      · rw [hst] at hd; simp [isDone] at hd
      · rw [hst] at hd; simp [isDone] at hd
      · exact hdone ⟨0, by rw [List.getElem?_eq_getElem h0, hst]⟩
  have hnieq : s.nextIndex = items.length := Nat.le_antisymm hni hfin
  apply List.ext_getElem?
  intro j
  by_cases hj : j < items.length
  · rcases hwr j (by omega) with ⟨w, hw⟩ | ⟨t, hts, htv⟩
    · exact absurd hw (hnorun w j)
    · rw [htv, List.getElem?_map, hts]
      rfl
  · rw [List.getElem?_eq_none (by rw [hlen]; omega),
      List.getElem?_eq_none (by rw [List.length_map]; omega)]

theorem filterMap_id_replicate_none {α : Type} (n : Nat) :
    (List.replicate n (none : Option α)).filterMap id = [] := by
  induction n with
  | zero => rfl
  | succ n ih => simp [List.replicate_succ, List.filterMap_cons, ih]

/-- C4: for every matched-items sequence, the pool consists of exactly
min(concurrencyLimit, itemCount) workers pulling from the shared cursor —
not one task per item — and in every reachable state the number of uploads
in flight is at most that worker count, hence at most the concurrency
limit. -/
theorem runWithConcurrency_worker_bound (matched : List MatchItem)
    (up : MatchItem → Option UploadResult) (mc : Int) (hmc : 0 ≤ mc)
    (s : PoolState (Option UploadResult)) (hr : Reachable matched up mc s) :
    s.workers.length = min mc.toNat matched.length
    ∧ inFlight s ≤ min mc.toNat matched.length
    ∧ inFlight s ≤ mc.toNat := by
  have hwl := reachable_workers_length matched up mc s hr
  have hmin : numWorkers mc matched.length = min mc.toNat matched.length := by
    unfold numWorkers
    omega
  have h1 : s.workers.length = min mc.toNat matched.length := by rw [hwl, hmin]
  have h2 : inFlight s ≤ s.workers.length := List.length_filter_le _ _
  exact ⟨h1, h1 ▸ h2, Nat.le_trans (h1 ▸ h2) (Nat.min_le_left _ _)⟩

/-- C4 witness: the worker bound at a concrete three-item sequence with
concurrency limit 2, at the pool's initial state. -/
theorem runWithConcurrency_worker_bound_witness :
    (initState (Option UploadResult) 2 3).workers.length = min (Int.toNat 2) 3
    ∧ inFlight (initState (Option UploadResult) 2 3) ≤ min (Int.toNat 2) 3
    ∧ inFlight (initState (Option UploadResult) 2 3) ≤ Int.toNat 2 := by
  have h := runWithConcurrency_worker_bound
    [⟨⟨"a.cy.ts"⟩, "va", "ka"⟩, ⟨⟨"b.cy.ts"⟩, "vb", "kb"⟩, ⟨⟨"c.cy.ts"⟩, "vc", "kc"⟩]
    (fun _ => none) 2 (by decide) _ Relation.ReflTransGen.refl
  exact h

theorem poolStep_from_empty {T R : Type} (items : List T) (fn : T → R)
    (s t : PoolState R) (hw : s.workers = []) (h : PoolStep items fn s t) :
    False := by
  cases h with
  | claim w hw' hi => rw [hw] at hw'; simp at hw'
  | finish w i hw' hit => rw [hw] at hw'; simp at hw'
  | exit w hw' hi => rw [hw] at hw'; simp at hw'

/-- C10: with a zero or negative concurrency limit, the pool is created with
min(maxConcurrent, itemCount) ≤ 0, i.e. zero, workers: the initial state is
already terminal, no step can ever fire (so the object store is never
contacted), and the orchestration resolves immediately with the empty
result — every matched item is silently dropped. -/
theorem runWithConcurrency_nonpositive_limit_noop (matched : List MatchItem)
    (up : MatchItem → Option UploadResult) (mc : Int)
    (hmc : mc ≤ 0) (_hne : matched ≠ []) :
    numWorkers mc matched.length = 0
    ∧ Terminal (initState (Option UploadResult) mc matched.length)
    ∧ uploadOutput (initState (Option UploadResult) mc matched.length) = []
    ∧ ∀ s, Reachable matched up mc s →
        s = initState (Option UploadResult) mc matched.length := by
  have hzero : numWorkers mc matched.length = 0 := by unfold numWorkers; omega
  have hwnil : (initState (Option UploadResult) mc matched.length).workers = [] := by
    rw [initState, hzero]
    rfl
  refine ⟨hzero, ?_, ?_, ?_⟩
  · unfold Terminal
    rw [hwnil]
    rfl
  · unfold uploadOutput runResults
    rw [show (initState (Option UploadResult) mc matched.length).slots
      = List.replicate matched.length none from rfl]
    rw [filterMap_id_replicate_none]
    rfl
  · intro s hr
    induction hr with
    | refl => rfl
    | tail hprev hstep ih =>
      rw [ih] at hstep
      exact (poolStep_from_empty matched up _ _ hwnil hstep).elim

/-- C10 witness: the no-op theorem at concurrency limit 0 with one matched
item. -/
theorem runWithConcurrency_nonpositive_limit_noop_witness :
    numWorkers 0 1 = 0
    ∧ Terminal (initState (Option UploadResult) 0 1)
    ∧ uploadOutput (initState (Option UploadResult) 0 1) = [] := by
  have h := runWithConcurrency_nonpositive_limit_noop
    [⟨⟨"a.cy.ts"⟩, "v", "k"⟩] (fun _ => none) 0 (by decide) (by decide)
  exact ⟨h.1, h.2.1, h.2.2.1⟩

/-- C2: whatever interleaving the scheduler takes, once the pool reaches a
terminal state (with a positive concurrency limit) the value `uploadVideos`
returns is exactly the order-preserving sub-sequence of the matched items
whose per-item upload resolved successfully, mapped to their results:
failed items are simply absent, and one item's failure removes or reorders
nothing else — dropping a failing item splits the output into the
surrounding successes. -/
theorem uploadVideos_ordered_successes (matched : List MatchItem)
    (up : MatchItem → Option UploadResult) (mc : Int)
    (s : PoolState (Option UploadResult)) (hmc : 1 ≤ mc)
    (hr : Reachable matched up mc s) (ht : Terminal s) :
    uploadOutput s = matched.filterMap up
    ∧ (∀ pre bad post, matched = pre ++ bad :: post → up bad = none →
        uploadOutput s = pre.filterMap up ++ post.filterMap up) := by
  have hs := pool_terminal_slots matched up mc s hr ht hmc
  have hout : uploadOutput s = matched.filterMap up := by
    unfold uploadOutput runResults
    rw [hs, List.filterMap_map]
    have h1 : List.filterMap (id ∘ fun t => some (up t)) matched = matched.map up :=
      congrFun (List.filterMap_eq_map up) matched
    rw [h1, List.filterMap_map]
    rfl
  refine ⟨hout, ?_⟩
  intro pre bad post heq hbad
  rw [hout, heq, List.filterMap_append, List.filterMap_cons, hbad]

/-- C2 witness: a concrete two-item run under concurrency limit 1 in which
the first item's upload fails and the second succeeds; the single worker
claims and resolves both items and exits, and the returned sequence is
exactly the one successful result. -/
theorem uploadVideos_ordered_successes_witness :
    uploadOutput (⟨2, [WStat.done],
      [some none, some (some (⟨"b", "u"⟩ : UploadResult))]⟩
        : PoolState (Option UploadResult))
      = [(⟨"b", "u"⟩ : UploadResult)] := by
  have t1 : PoolStep [(⟨⟨"a"⟩, "v", "ka"⟩ : MatchItem), ⟨⟨"b"⟩, "v", "kb"⟩]
      (fun m => if m.videoKey == "ka" then none else some ⟨m.spec.path, "u"⟩)
      (⟨0, [WStat.idle], [none, none]⟩ : PoolState (Option UploadResult))
      ⟨1, [WStat.running 0], [none, none]⟩ :=
    PoolStep.claim (⟨0, [WStat.idle], [none, none]⟩ : PoolState (Option UploadResult))
      0 rfl (by decide)
  have t2 : PoolStep [(⟨⟨"a"⟩, "v", "ka"⟩ : MatchItem), ⟨⟨"b"⟩, "v", "kb"⟩]
      (fun m => if m.videoKey == "ka" then none else some ⟨m.spec.path, "u"⟩)
      (⟨1, [WStat.running 0], [none, none]⟩ : PoolState (Option UploadResult))
      ⟨1, [WStat.idle], [some none, none]⟩ :=
    PoolStep.finish (⟨1, [WStat.running 0], [none, none]⟩
      : PoolState (Option UploadResult)) 0 0 rfl (by decide)
  have t3 : PoolStep [(⟨⟨"a"⟩, "v", "ka"⟩ : MatchItem), ⟨⟨"b"⟩, "v", "kb"⟩]
      (fun m => if m.videoKey == "ka" then none else some ⟨m.spec.path, "u"⟩)
      (⟨1, [WStat.idle], [some none, none]⟩ : PoolState (Option UploadResult))
      ⟨2, [WStat.running 1], [some none, none]⟩ :=
    PoolStep.claim (⟨1, [WStat.idle], [some none, none]⟩
      : PoolState (Option UploadResult)) 0 rfl (by decide)
  have t4 : PoolStep [(⟨⟨"a"⟩, "v", "ka"⟩ : MatchItem), ⟨⟨"b"⟩, "v", "kb"⟩]
      (fun m => if m.videoKey == "ka" then none else some ⟨m.spec.path, "u"⟩)
      (⟨2, [WStat.running 1], [some none, none]⟩ : PoolState (Option UploadResult))
      ⟨2, [WStat.idle], [some none, some (some (⟨"b", "u"⟩ : UploadResult))]⟩ :=
    PoolStep.finish (⟨2, [WStat.running 1], [some none, none]⟩
      : PoolState (Option UploadResult)) 0 1 rfl (by decide)
  have t5 : PoolStep [(⟨⟨"a"⟩, "v", "ka"⟩ : MatchItem), ⟨⟨"b"⟩, "v", "kb"⟩]
      (fun m => if m.videoKey == "ka" then none else some ⟨m.spec.path, "u"⟩)
      (⟨2, [WStat.idle], [some none, some (some (⟨"b", "u"⟩ : UploadResult))]⟩
        : PoolState (Option UploadResult))
      ⟨2, [WStat.done], [some none, some (some (⟨"b", "u"⟩ : UploadResult))]⟩ :=
    PoolStep.exit (⟨2, [WStat.idle],
      [some none, some (some (⟨"b", "u"⟩ : UploadResult))]⟩
        : PoolState (Option UploadResult)) 0 rfl (by decide)
  have hreach : Reachable [(⟨⟨"a"⟩, "v", "ka"⟩ : MatchItem), ⟨⟨"b"⟩, "v", "kb"⟩]
      (fun m => if m.videoKey == "ka" then none else some ⟨m.spec.path, "u"⟩) 1
      ⟨2, [WStat.done], [some none, some (some (⟨"b", "u"⟩ : UploadResult))]⟩ :=
    (((((Relation.ReflTransGen.refl).tail t1).tail t2).tail t3).tail t4).tail t5
  have h := uploadVideos_ordered_successes
    [(⟨⟨"a"⟩, "v", "ka"⟩ : MatchItem), ⟨⟨"b"⟩, "v", "kb"⟩]
    (fun m => if m.videoKey == "ka" then none else some ⟨m.spec.path, "u"⟩) 1
    ⟨2, [WStat.done], [some none, some (some (⟨"b", "u"⟩ : UploadResult))]⟩
    (by decide) hreach (by unfold Terminal; decide)
  rw [h.1]
  decide

end CypressPrVideos
